import Mathlib

/-!
Verification of the retrieval pipeline of the `srs_classifier` repository
(`api/utils.py` and `api/views.py`): the text chunker `chunk_text`, the
`FreeVectorStore` (add/search/persist), and the query orchestration in
`QueryAPIView`.

Strings are modelled as `List Char`.  Python regular expressions are
modelled on ASCII whitespace (`\s` of the `re` module on ASCII text).
Similarity scores (floats in the source) are modelled as rationals: the
claims under study only compare scores against a threshold.  The FAISS
index is modelled by the number of vectors it holds (`ntotal`) plus the
abstract raw neighbour list its `search` returns; embeddings themselves
are opaque (the embedder returns exactly one vector per input text).
-/

set_option maxRecDepth 40000

/-- Decidable equality for `Except`, used to evaluate the model on
concrete inputs. -/
instance {ε α : Type} [DecidableEq ε] [DecidableEq α] : DecidableEq (Except ε α) := fun x y =>
  match x, y with
  | .ok a, .ok b =>
    if h : a = b then .isTrue (congrArg Except.ok h)
    else .isFalse (fun hh => h (Except.ok.inj hh))
  | .error e, .error f =>
    if h : e = f then .isTrue (congrArg Except.error h)
    else .isFalse (fun hh => h (Except.error.inj hh))
  | .ok _, .error _ => .isFalse (fun hh => Except.noConfusion hh)
  | .error _, .ok _ => .isFalse (fun hh => Except.noConfusion hh)

/-! ## Text utilities (`api/utils.py`, `chunk_text` helpers) -/

/-- Python `\s` on ASCII text: space, tab, newline, carriage return,
vertical tab, form feed. -/
def isSpace (c : Char) : Bool :=
  c == ' ' || c == '\t' || c == '\n' || c == '\r' || c == '\x0b' || c == '\x0c'

/-- Python `str.strip()`: drop leading and trailing whitespace. -/
def stripChars (l : List Char) : List Char :=
  List.dropWhile isSpace ((l.reverse.dropWhile isSpace).reverse)

/-- Python `re.sub(r'\s+', ' ', ·)`: collapse every maximal whitespace run
to a single space. -/
def collapseWs : List Char → List Char
  | [] => []
  | [c] => if isSpace c then [' '] else [c]
  | c :: d :: cs =>
    if isSpace c then
      if isSpace d then collapseWs (d :: cs)
      else ' ' :: collapseWs (d :: cs)
    else c :: collapseWs (d :: cs)

/-- Sentence-ending punctuation of the chunker's split pattern
`(?<=[.!?])\s+`. -/
def isPunctChar (c : Char) : Bool :=
  c == '.' || c == '!' || c == '?'

/-- Does the accumulator (current piece, reversed) end in `[.!?]`?  The
head of the reversed accumulator is the character immediately before the
scan position, i.e. the regex lookbehind. -/
def headIsPunct : List Char → Bool
  | p :: _ => isPunctChar p
  | [] => false

/-- Python `re.split(r'(?<=[.!?])\s+', text)`.  `acc` holds the current
piece reversed; `skipping` is true while consuming the remainder of a
matched whitespace run. -/
def splitSentencesAux : Bool → List Char → List Char → List (List Char)
  | _, acc, [] => [acc.reverse]
  | skipping, acc, c :: cs =>
    if isSpace c then
      if skipping then splitSentencesAux true acc cs
      else if headIsPunct acc then acc.reverse :: splitSentencesAux true [] cs
      else splitSentencesAux false (c :: acc) cs
    else splitSentencesAux false (c :: acc) cs

/-- Sentence split of the chunker (`re.split(r'(?<=[.!?])\s+', text)`). -/
def splitSentences (t : List Char) : List (List Char) :=
  splitSentencesAux false [] t

/-- Python `str.split('. ')` (the chunker's declared fallback). -/
def splitDotSpaceAux : List Char → List Char → List (List Char)
  | acc, '.' :: ' ' :: cs => acc.reverse :: splitDotSpaceAux [] cs
  | acc, c :: cs => splitDotSpaceAux (c :: acc) cs
  | acc, [] => [acc.reverse]

/-- Python `text.split('. ')`. -/
def splitDotSpace (t : List Char) : List (List Char) :=
  splitDotSpaceAux [] t

/-- The sentence list `chunk_text` works on: clean the text, split into
sentences, and fall back to `text.split('. ')` when the sentence list is
empty (`if not sentences:` in the source). -/
def sentencesOf (text : List Char) : List (List Char) :=
  let t := collapseWs (stripChars text)
  let sentences := splitSentences t
  if sentences.isEmpty then splitDotSpace t else sentences

/-! ## The chunking loop (`chunk_text`, `api/utils.py` lines 198-230) -/

/-- Inner `while` of `chunk_text`: greedily extend `cur` (the value of
`current_chunk`) with the next sentences of `rest` while the candidate
`potential_chunk` stays within `maxc`; `sc` counts accepted sentences.
The source reads `sentences[i + sentence_count]` for increasing
`sentence_count`, i.e. it walks the suffix `sentences.drop i` which is
passed here as `rest`. -/
def buildChunk (maxc : Nat) : List Char → Nat → List (List Char) → List Char × Nat
  | cur, sc, [] => (cur, sc)
  | cur, sc, s :: rest =>
    let pot := if cur.isEmpty then s else cur ++ ' ' :: s
    if pot.length ≤ maxc then buildChunk maxc pot (sc + 1) rest
    else (cur, sc)

/-- Cursor advance of `chunk_text`: `i += 1` when at most one sentence was
consumed, otherwise `i += max(1, sentence_count - overlap_sentences)` with
`overlap_sentences = max(1, min(sentence_count // 2, overlap_size // 50))`.
Note `max 1 (sc - ov)` over `Nat` agrees with Python's
`max(1, sc - ov)` over `int`: both are `1` whenever `sc - ov ≤ 1`. -/
def nextCursor (ov i sc : Nat) : Nat :=
  if sc ≤ 1 then i + 1
  else i + max 1 (sc - max 1 (min (sc / 2) (ov / 50)))

/-- Outer `while i < len(sentences)` of `chunk_text`, as a fuel-indexed
loop.  Each iteration strictly increases the cursor `i`
(see `chunk_loop_terminates`), so `sentences.length - i` iterations always
suffice and the fuel never runs out on the calls `chunk_text` makes. -/
def chunkLoop (sentences : List (List Char)) (maxc ov : Nat) : Nat → Nat → List (List Char)
  | 0, _ => []
  | fuel + 1, i =>
    if i < sentences.length then
      let bc := buildChunk maxc [] 0 (sentences.drop i)
      let c := stripChars bc.1
      (if c.isEmpty then [] else [c]) ++
        chunkLoop sentences maxc ov fuel (nextCursor ov i bc.2)
    else []

/-- Errors raised by `chunk_text` (both `ValueError` in the source). -/
inductive ChunkError where
  /-- Raised for empty or whitespace-only input
  (`Empty text provided for chunking`). -/
  | emptyInput
  /-- Raised when zero chunks are produced
  (`No valid chunks could be created`). -/
  | noChunks
deriving DecidableEq

/-- The chunker `chunk_text(text, max_chunk_size, overlap_size)` of
`api/utils.py`. -/
def chunk_text (text : List Char) (max_chunk_size overlap_size : Nat) :
    Except ChunkError (List (List Char)) :=
  if (stripChars text).isEmpty then .error .emptyInput
  else
    let sentences := sentencesOf text
    let chunks := chunkLoop sentences max_chunk_size overlap_size sentences.length 0
    if chunks.isEmpty then .error .noChunks else .ok chunks

/-! ## The vector store (`FreeVectorStore`, `api/utils.py` lines 13-113) -/

/-- Per-chunk metadata attached by the upload view
(`api/views.py` lines 80-86). -/
structure ChunkMeta where
  filename : List Char
  chunk_index : Nat
  total_chunks : Nat
deriving DecidableEq

/-- One record of `FreeVectorStore.documents`:
`{'id': doc_id, 'text': text, 'metadata': meta}`. -/
structure Doc where
  id : Nat
  text : List Char
  metadata : ChunkMeta
deriving DecidableEq

/-- In-memory state of `FreeVectorStore`.  The FAISS index is abstracted
by the number of vectors it holds (`index.ntotal`); the vectors' numeric
contents never influence the claims under study. -/
structure FreeVectorStore where
  ntotal : Nat
  documents : List Doc
deriving DecidableEq

/-- `create_new_index`: an empty index and an empty document list. -/
def emptyStore : FreeVectorStore := { ntotal := 0, documents := [] }

/-- On-disk snapshot pair (`faiss_index.bin`, `documents.json`),
abstracted the same way as the in-memory index. -/
structure Disk where
  faiss_index : Option Nat
  documents_json : Option (List Doc)
deriving DecidableEq

/-- A fresh persist directory with no snapshot. -/
def emptyDisk : Disk := { faiss_index := none, documents_json := none }

/-- `FreeVectorStore.save_index`: write both files; any exception is
caught and logged (`except Exception as e: logger.error(...)`), so the
call always returns normally.  `writeOk` is the oracle for whether the
disk write succeeds; on failure the on-disk pair is left as it was. -/
def FreeVectorStore.save_index (s : FreeVectorStore) (disk : Disk) (writeOk : Bool) : Disk :=
  if writeOk then
    { faiss_index := some s.ntotal, documents_json := some s.documents }
  else disk

/-- Error raised by `add_documents`
(`ValueError: Texts and metadata must have same length`). -/
inductive StoreError where
  | arityMismatch
deriving DecidableEq

/-- The append loop of `add_documents`: each entry is stored with
`doc_id = len(self.documents)` at the moment it is appended. -/
def appendDocs : List Doc → List (List Char × ChunkMeta) → List Doc
  | docs, [] => docs
  | docs, (t, m) :: rest =>
    appendDocs (docs ++ [{ id := docs.length, text := t, metadata := m }]) rest

/-- Closed form of `appendDocs`: the freshly appended records, ids
numbered consecutively from `start`. -/
def mkDocs (start : Nat) : List (List Char × ChunkMeta) → List Doc
  | [] => []
  | (t, m) :: rest => { id := start, text := t, metadata := m } :: mkDocs (start + 1) rest

/-- `FreeVectorStore.add_documents`: reject empty input or an arity
mismatch (`if not texts or len(texts) != len(metadata)`), then embed
(one vector per text), add the vectors to the index, append the metadata
records, and persist.  Persistence failures are swallowed inside
`save_index`. -/
def FreeVectorStore.add_documents (s : FreeVectorStore) (disk : Disk) (writeOk : Bool)
    (texts : List (List Char)) (metadata : List ChunkMeta) :
    Except StoreError (FreeVectorStore × Disk) :=
  if texts.isEmpty || texts.length != metadata.length then .error .arityMismatch
  else
    let s1 : FreeVectorStore :=
      { ntotal := s.ntotal + texts.length,
        documents := appendDocs s.documents (texts.zip metadata) }
    .ok (s1, s1.save_index disk writeOk)

/-- A sequence of `add_documents` calls.  A call that raises leaves the
state unchanged (the `ValueError` fires before any mutation); a
successful call installs the new store and disk. -/
def runAdds : FreeVectorStore × Disk → List (List (List Char) × List ChunkMeta × Bool) →
    FreeVectorStore × Disk
  | sd, [] => sd
  | sd, (texts, metadata, writeOk) :: rest =>
    match sd.1.add_documents sd.2 writeOk texts metadata with
    | .ok sd1 => runAdds sd1 rest
    | .error _ => runAdds sd rest

/-! ## Search (`FreeVectorStore.search`, `api/utils.py` lines 74-95) -/

/-- One element of the list `FreeVectorStore.search` returns:
`{'text': ..., 'score': ..., 'metadata': ...}`. -/
structure SearchResult where
  text : List Char
  score : ℚ
  metadata : ChunkMeta
deriving DecidableEq

/-- The result-building loop of `search`: keep a raw neighbour
`(score, idx)` only when `idx != -1 and score >= score_threshold`, and
look the document up by its index.  FAISS only ever reports indices of
stored vectors (or `-1` for padding), so the `none` arm of the lookup is
dead; it is kept total here. -/
def searchFilter (documents : List Doc) (threshold : ℚ) : List (ℚ × Int) → List SearchResult
  | [] => []
  | (score, idx) :: rest =>
    if idx ≠ -1 ∧ threshold ≤ score then
      (match documents.get? idx.toNat with
       | some doc => [{ text := doc.text, score := score, metadata := doc.metadata }]
       | none => []) ++ searchFilter documents threshold rest
    else searchFilter documents threshold rest

/-- `FreeVectorStore.search(query, k, score_threshold)`: return `[]` on an
empty index, otherwise filter the raw top-`k` neighbour list.  `raw` is
the `(score, index)` list produced by `self.index.search` for the embedded
query (its length is at most `k`); the embedding itself is opaque. -/
def FreeVectorStore.search (s : FreeVectorStore) (raw : List (ℚ × Int)) (threshold : ℚ) :
    List SearchResult :=
  if s.ntotal = 0 then [] else searchFilter s.documents threshold raw

/-! ## Query orchestration (`QueryAPIView`, `api/views.py` lines 116-218) -/

/-- Outcome of the HTTP call to Ollama inside
`generate_answer_with_ollama`: a 200 response carrying `response`, a
non-200 status, a `requests.exceptions.ConnectionError`, or any other
exception. -/
inductive OllamaOutcome where
  | success (resp : List Char)
  | non200
  | connectionError
  | otherException
deriving DecidableEq

/-- Fallback answer used on a non-200/empty/connection-refused outcome:
`f"Based on the uploaded documents:\n\n{context[:300]}..."`. -/
def contextFallback (context : List Char) : List Char :=
  "Based on the uploaded documents:\n\n".toList ++ context.take 300 ++ "...".toList

/-- Fallback answer used on any other exception:
`f"I found relevant information: {context[:200]}..."`. -/
def exceptionFallback (context : List Char) : List Char :=
  "I found relevant information: ".toList ++ context.take 200 ++ "...".toList

/-- `QueryAPIView.generate_answer_with_ollama`: on a 200 response return
the stripped `response` field when non-empty, otherwise (and on a non-200
status or connection failure) the context fallback; on any other
exception the shorter exception fallback.  The prompt string built from
`question` and `context` and the HTTP transport are abstracted into
`outcome`. -/
def QueryAPIView.generate_answer_with_ollama (question context : List Char)
    (outcome : OllamaOutcome) : List Char :=
  match outcome with
  | .success resp =>
    let answer := stripChars resp
    if answer.isEmpty then contextFallback context else answer
  | .non200 => contextFallback context
  | .connectionError => contextFallback context
  | .otherException => exceptionFallback context

/-- Fixed message returned when no search result passes the threshold. -/
def noInfoMsg : List Char :=
  ("I couldn\x27t find any relevant information in the uploaded documents to answer your question. Please make sure you\x27ve uploaded relevant documents or try rephrasing your question.").toList

/-- Python `"\n\n".join(context_texts)`. -/
def joinBlank : List (List Char) → List Char
  | [] => []
  | [t] => t
  | t :: rest => t ++ '\n' :: '\n' :: joinBlank rest

/-- The `context` assembled by the query path: texts of the first three
threshold-filtered results joined by blank lines. -/
def assembleContext (s : FreeVectorStore) (raw : List (ℚ × Int)) (threshold : ℚ) : List Char :=
  joinBlank (((s.search raw threshold).take 3).map SearchResult.text)

/-- Successful payload of the query endpoint.  `relevance_scores` are kept
as rationals (the source formats them to three decimals for display);
`none` models a key absent from the JSON body. -/
structure QueryResponse where
  answer : List Char
  retrieved_docs : List (List Char)
  context_found : Bool
  relevance_scores : Option (List ℚ)
  sources : Option (List (List Char))
deriving DecidableEq

/-- Result of `QueryAPIView.post`: a 400 error for invalid questions, or a
200 response.  `backendCalled` records whether
`generate_answer_with_ollama` was invoked. -/
inductive PostResult where
  | badRequest (msg : List Char)
  | ok (resp : QueryResponse) (backendCalled : Bool)
deriving DecidableEq

/-- Score threshold passed by the query path
(`vector_store.search(question, k=5, score_threshold=0.3)`). -/
def scoreThreshold : ℚ := 3/10

/-- `QueryAPIView.post`: validate the question, search with threshold 0.3,
answer with the fixed message when nothing passes, otherwise assemble the
context from the top three results, generate the answer, and surface the
retrieved texts, their scores and the de-duplicated source filenames
(`list(set(...))` in the source has arbitrary order; first-occurrence
de-duplication is used here). -/
def QueryAPIView.post (s : FreeVectorStore) (raw : List (ℚ × Int)) (outcome : OllamaOutcome)
    (question : List Char) : PostResult :=
  let q := stripChars question
  if q.isEmpty then .badRequest ("No question provided").toList
  else if 1000 < q.length then .badRequest ("Question too long (max 1000 characters)").toList
  else
    let search_results := s.search raw scoreThreshold
    if search_results.isEmpty then
      .ok { answer := noInfoMsg, retrieved_docs := [], context_found := false,
            relevance_scores := none, sources := none } false
    else
      let context := joinBlank ((search_results.take 3).map SearchResult.text)
      let answer := QueryAPIView.generate_answer_with_ollama q context outcome
      .ok { answer := answer,
            retrieved_docs := search_results.map SearchResult.text,
            context_found := true,
            relevance_scores := some (search_results.map SearchResult.score),
            sources := some (List.dedup (search_results.map (fun r => r.metadata.filename))) }
        true

/-! ## Specification predicates and concrete fixtures -/

/-- Index/store parity invariant: the index holds exactly one vector per
stored document, and every stored record's `id` equals its position. -/
def storeInv (s : FreeVectorStore) : Prop :=
  s.ntotal = s.documents.length ∧
  ∀ j (h : j < s.documents.length), (s.documents.get ⟨j, h⟩).id = j

/-- Concrete metadata fixture for evaluating the model. -/
def m1 : ChunkMeta := { filename := "f".toList, chunk_index := 0, total_chunks := 1 }

/-- Concrete document fixture. -/
def d1 : Doc := { id := 0, text := "t".toList, metadata := m1 }

/-- Concrete one-document store fixture. -/
def st1 : FreeVectorStore := { ntotal := 1, documents := [d1] }

/-- Closed form of the inner chunk accumulator: starting from a non-empty
`acc`, each further accepted sentence `s` extends it as `acc ++ ' ' :: s`
(the `current_chunk + " " + sentence` of the source). -/
def joinFrom (acc : List Char) : List (List Char) → List Char
  | [] => acc
  | s :: rest => joinFrom (acc ++ ' ' :: s) rest

/-- An optional character that is present and is not whitespace.  Used to
state that a string is non-empty with a non-whitespace first (or last)
character. -/
def okEnd (o : Option Char) : Prop := ∃ c, o = some c ∧ isSpace c = false

/-! ## Helper lemmas: the chunking loop -/

theorem stripChars_length_le (l : List Char) : (stripChars l).length ≤ l.length := by
  have h1 := (List.dropWhile_sublist (l := (l.reverse.dropWhile isSpace).reverse) isSpace).length_le
  have h2 := (List.dropWhile_sublist (l := l.reverse) isSpace).length_le
  simp only [stripChars]
  calc (List.dropWhile isSpace ((l.reverse.dropWhile isSpace).reverse)).length
      ≤ ((l.reverse.dropWhile isSpace).reverse).length := h1
    _ = (l.reverse.dropWhile isSpace).length := by simp
    _ ≤ l.reverse.length := h2
    _ = l.length := by simp

theorem nextCursor_gt (ov i sc : Nat) : i < nextCursor ov i sc := by
  unfold nextCursor
  split
  · exact Nat.lt_succ_self i
  · have h : 1 ≤ max 1 (sc - max 1 (min (sc / 2) (ov / 50))) := Nat.le_max_left _ _
    omega

theorem chunkLoop_fuel (sentences : List (List Char)) (maxc ov : Nat) :
    ∀ f g i, sentences.length - i ≤ f → sentences.length - i ≤ g →
      chunkLoop sentences maxc ov f i = chunkLoop sentences maxc ov g i := by
  intro f
  induction f with
  | zero =>
    intro g i hf hg
    cases g with
    | zero => rfl
    | succ g =>
      simp only [chunkLoop]
      rw [if_neg (by omega)]
  | succ f ih =>
    intro g i hf hg
    cases g with
    | zero =>
      simp only [chunkLoop]
      rw [if_neg (by omega)]
    | succ g =>
      simp only [chunkLoop]
      by_cases hi : i < sentences.length
      · rw [if_pos hi, if_pos hi]
        have hnext := nextCursor_gt ov i (buildChunk maxc [] 0 (sentences.drop i)).2
        congr 1
        exact ih g _ (by omega) (by omega)
      · rw [if_neg hi, if_neg hi]

theorem buildChunk_le (maxc : Nat) :
    ∀ (rest : List (List Char)) (cur : List Char) (sc : Nat),
      cur = [] ∨ cur.length ≤ maxc →
      (buildChunk maxc cur sc rest).1 = [] ∨ (buildChunk maxc cur sc rest).1.length ≤ maxc := by
  intro rest
  induction rest with
  | nil => intro cur sc h; simpa [buildChunk] using h
  | cons s rs ih =>
    intro cur sc h
    simp only [buildChunk]
    by_cases hpot : (if cur.isEmpty then s else cur ++ ' ' :: s).length ≤ maxc
    · rw [if_pos hpot]
      exact ih _ _ (Or.inr hpot)
    · rw [if_neg hpot]
      exact h

theorem chunkLoop_len_le (sentences : List (List Char)) (maxc ov : Nat) :
    ∀ fuel i c, c ∈ chunkLoop sentences maxc ov fuel i → c.length ≤ maxc := by
  intro fuel
  induction fuel with
  | zero => intro i c hc; simp [chunkLoop] at hc
  | succ fuel ih =>
    intro i c hc
    simp only [chunkLoop] at hc
    by_cases hi : i < sentences.length
    · rw [if_pos hi] at hc
      rcases List.mem_append.mp hc with h1 | h2
      · have hb := buildChunk_le maxc (sentences.drop i) [] 0 (Or.inl rfl)
        by_cases he : (stripChars (buildChunk maxc [] 0 (sentences.drop i)).1).isEmpty
        · rw [if_pos he] at h1
          simp at h1
        · rw [if_neg he] at h1
          rcases List.mem_singleton.mp h1 with rfl
          rcases hb with h | h
          · rw [h]
            simp [stripChars]
          · exact le_trans (stripChars_length_le _) h
      · exact ih _ _ h2
    · rw [if_neg hi] at hc
      simp at hc

theorem chunk_text_ok_eq (text : List Char) (maxc ov : Nat) (chunks : List (List Char))
    (h : chunk_text text maxc ov = .ok chunks) :
    chunks = chunkLoop (sentencesOf text) maxc ov (sentencesOf text).length 0 := by
  simp only [chunk_text] at h
  split at h
  · exact absurd h (by simp)
  · split at h
    · exact absurd h (by simp)
    · exact (Except.ok.inj h).symm

/-! ## Claim theorems: C1 and C10 -/

/-- Claim C1 counterexample: the claim's exception clause is false.  With
`max_chunk_size = 5`, the input `"Hi. " ++ 10 × 'a'` splits into the
sentences `"Hi."` and `"aaaaaaaaaa"`; the second exceeds the bound, yet it
does not form its own chunk — the produced chunk list is just `["Hi."]`
and the oversized sentence is dropped. -/
theorem chunk_oversized_dropped_cex :
    chunk_text ("Hi. ".toList ++ List.replicate 10 'a') 5 50 = .ok ["Hi.".toList] ∧
    List.replicate 10 'a' ∈ sentencesOf ("Hi. ".toList ++ List.replicate 10 'a') ∧
    5 < (List.replicate 10 'a').length ∧
    List.replicate 10 'a' ∉ ["Hi.".toList] :=
  ⟨by decide, by decide, by decide, by decide⟩

/-- Claim C1 (amended): every chunk produced by `chunk_text` has length at
most `max_chunk_size`, with no exception; a sentence longer than
`max_chunk_size` never becomes an (oversized) chunk — it is skipped
entirely, because `current_chunk` stays empty at that cursor position and
an empty chunk is never recorded. -/
theorem chunk_len_le_max (text : List Char) (maxc ov : Nat) (chunks : List (List Char))
    (h : chunk_text text maxc ov = .ok chunks) :
    ∀ c ∈ chunks, c.length ≤ maxc := by
  intro c hc
  rw [chunk_text_ok_eq text maxc ov chunks h] at hc
  exact chunkLoop_len_le _ _ _ _ _ c hc

/-- Claim C1 witness: the amended bound evaluated on a concrete input. -/
theorem chunk_len_le_max_app :
    chunk_text ("Hi. ".toList ++ List.replicate 10 'a') 5 50 = .ok ["Hi.".toList] ∧
    ("Hi.".toList).length ≤ 5 :=
  ⟨by decide,
    chunk_len_le_max ("Hi. ".toList ++ List.replicate 10 'a') 5 50 ["Hi.".toList]
      (by decide) ("Hi.".toList) (by decide)⟩

/-- Claim C10: the chunking loop terminates.  First, each outer iteration
strictly increases the scan cursor: both advance rules add at least 1
(`i + 1`, and `i + max 1 ...`).  Second, because of this the loop needs at
most `sentences.length - i` iterations: any fuel of at least that much —
in particular the `sentences.length` that `chunk_text` supplies — computes
the same (terminal) result. -/
theorem chunk_loop_terminates :
    (∀ ov i sc, i < nextCursor ov i sc) ∧
    (∀ (sentences : List (List Char)) (maxc ov f i : Nat), sentences.length - i ≤ f →
      chunkLoop sentences maxc ov f i = chunkLoop sentences maxc ov (sentences.length - i) i) :=
  ⟨nextCursor_gt, fun sentences maxc ov f i hf =>
    chunkLoop_fuel sentences maxc ov f _ i hf (Nat.le_refl _)⟩

/-- Claim C10 witness: cursor growth and fuel-sufficiency evaluated at
concrete inputs. -/
theorem chunk_loop_terminates_app :
    0 < nextCursor 50 0 3 ∧
    chunkLoop [['a']] 400 50 5 0 = chunkLoop [['a']] 400 50 ([['a']].length - 0) 0 :=
  ⟨chunk_loop_terminates.1 50 0 3, chunk_loop_terminates.2 [['a']] 400 50 5 0 (by decide)⟩

/-! ## Helper lemmas: the vector store -/

theorem appendDocs_eq : ∀ (pairs : List (List Char × ChunkMeta)) (docs : List Doc),
    appendDocs docs pairs = docs ++ mkDocs docs.length pairs := by
  intro pairs
  induction pairs with
  | nil => intro docs; simp [appendDocs, mkDocs]
  | cons p rest ih =>
    intro docs
    obtain ⟨t, m⟩ := p
    rw [appendDocs, ih, mkDocs]
    simp [List.append_assoc]

theorem mkDocs_length : ∀ (pairs : List (List Char × ChunkMeta)) (start : Nat),
    (mkDocs start pairs).length = pairs.length := by
  intro pairs
  induction pairs with
  | nil => intro start; rfl
  | cons p rest ih =>
    intro start
    obtain ⟨t, m⟩ := p
    rw [mkDocs]
    simp [ih]

theorem mkDocs_id : ∀ (pairs : List (List Char × ChunkMeta)) (start j : Nat)
    (h : j < (mkDocs start pairs).length),
    ((mkDocs start pairs).get ⟨j, h⟩).id = start + j := by
  intro pairs
  induction pairs with
  | nil => intro start j h; simp [mkDocs] at h
  | cons p rest ih =>
    intro start j h
    obtain ⟨t, m⟩ := p
    cases j with
    | zero => rfl
    | succ j =>
      simp only [mkDocs] at h ⊢
      have := ih (start + 1) j (by simpa [mkDocs] using Nat.lt_of_succ_lt_succ h)
      simp only [List.get_cons_succ]
      omega

theorem add_documents_ok (s : FreeVectorStore) (disk : Disk) (writeOk : Bool)
    (texts : List (List Char)) (metadata : List ChunkMeta)
    (hne : texts ≠ []) (hlen : texts.length = metadata.length) :
    s.add_documents disk writeOk texts metadata =
      .ok ({ ntotal := s.ntotal + texts.length,
             documents := s.documents ++ mkDocs s.documents.length (texts.zip metadata) },
           FreeVectorStore.save_index
             { ntotal := s.ntotal + texts.length,
               documents := s.documents ++ mkDocs s.documents.length (texts.zip metadata) }
             disk writeOk) := by
  simp only [FreeVectorStore.add_documents]
  rw [if_neg (by simp [hne, hlen]), appendDocs_eq]

theorem add_documents_err (s : FreeVectorStore) (disk : Disk) (writeOk : Bool)
    (texts : List (List Char)) (metadata : List ChunkMeta)
    (hlen : texts.length ≠ metadata.length) :
    s.add_documents disk writeOk texts metadata = .error .arityMismatch := by
  simp only [FreeVectorStore.add_documents]
  rw [if_pos (by simp [hlen])]

theorem storeInv_empty : storeInv emptyStore := by
  constructor
  · rfl
  · intro j h
    simp [emptyStore] at h

theorem storeInv_add (s : FreeVectorStore) (disk : Disk) (writeOk : Bool)
    (texts : List (List Char)) (metadata : List ChunkMeta)
    (sd1 : FreeVectorStore × Disk)
    (h : s.add_documents disk writeOk texts metadata = .ok sd1)
    (hinv : storeInv s) : storeInv sd1.1 := by
  simp only [FreeVectorStore.add_documents] at h
  split at h
  · exact absurd h (by simp)
  · rename_i hcond
    have hlen : texts.length = metadata.length := by
      simp only [Bool.or_eq_true, List.isEmpty_iff, bne_iff_ne] at hcond
      push_neg at hcond
      exact hcond.2
    rcases Except.ok.inj h with rfl
    rw [appendDocs_eq]
    constructor
    · simp [mkDocs_length, List.length_zip, hlen, hinv.1, Nat.min_self]
    · intro j hj
      by_cases hjs : j < s.documents.length
      · have : (s.documents ++ mkDocs s.documents.length (texts.zip metadata)).get ⟨j, hj⟩ =
            s.documents.get ⟨j, hjs⟩ := by
          simp [List.get_eq_getElem, List.getElem_append_left hjs]
        rw [this]
        exact hinv.2 j hjs
      · have hj2 : j - s.documents.length < (mkDocs s.documents.length (texts.zip metadata)).length := by
          have := hj
          simp only [List.length_append] at this
          omega
        have : (s.documents ++ mkDocs s.documents.length (texts.zip metadata)).get ⟨j, hj⟩ =
            (mkDocs s.documents.length (texts.zip metadata)).get ⟨j - s.documents.length, hj2⟩ := by
          simp [List.get_eq_getElem, List.getElem_append_right (Nat.le_of_not_lt hjs)]
        rw [this, mkDocs_id]
        omega

theorem runAdds_inv : ∀ (calls : List (List (List Char) × List ChunkMeta × Bool))
    (sd : FreeVectorStore × Disk), storeInv sd.1 → storeInv (runAdds sd calls).1 := by
  intro calls
  induction calls with
  | nil => intro sd h; exact h
  | cons cl rest ih =>
    intro sd h
    obtain ⟨texts, metadata, writeOk⟩ := cl
    simp only [runAdds]
    cases hadd : sd.1.add_documents sd.2 writeOk texts metadata with
    | ok sd1 => exact ih sd1 (storeInv_add sd.1 sd.2 writeOk texts metadata sd1 hadd h)
    | error e => exact ih sd h

theorem add_grow (s : FreeVectorStore) (disk : Disk) (writeOk : Bool)
    (texts : List (List Char)) (metadata : List ChunkMeta)
    (sd1 : FreeVectorStore × Disk)
    (h : s.add_documents disk writeOk texts metadata = .ok sd1) :
    sd1.1.documents.take s.documents.length = s.documents ∧
    s.documents.length ≤ sd1.1.documents.length := by
  simp only [FreeVectorStore.add_documents] at h
  split at h
  · exact absurd h (by simp)
  · rcases Except.ok.inj h with rfl
    rw [appendDocs_eq]
    constructor
    · exact List.take_left _ _
    · simp

theorem runAdds_grow : ∀ (calls : List (List (List Char) × List ChunkMeta × Bool))
    (sd : FreeVectorStore × Disk),
    (runAdds sd calls).1.documents.take sd.1.documents.length = sd.1.documents := by
  intro calls
  induction calls with
  | nil =>
    intro sd
    simp [runAdds]
  | cons cl rest ih =>
    intro sd
    obtain ⟨texts, metadata, writeOk⟩ := cl
    simp only [runAdds]
    cases hadd : sd.1.add_documents sd.2 writeOk texts metadata with
    | ok sd1 =>
      have h1 := ih sd1
      have h2 := add_grow sd.1 sd.2 writeOk texts metadata sd1 hadd
      have h3 : sd.1.documents.length ≤ sd1.1.documents.length := h2.2
      calc (runAdds sd1 rest).1.documents.take sd.1.documents.length
          = ((runAdds sd1 rest).1.documents.take sd1.1.documents.length).take
              sd.1.documents.length := by
            rw [List.take_take, Nat.min_eq_left h3]
        _ = sd1.1.documents.take sd.1.documents.length := by rw [h1]
        _ = sd.1.documents := h2.1
    | error e => exact ih sd

theorem runAdds_append : ∀ (calls extra : List (List (List Char) × List ChunkMeta × Bool))
    (sd : FreeVectorStore × Disk),
    runAdds sd (calls ++ extra) = runAdds (runAdds sd calls) extra := by
  intro calls
  induction calls with
  | nil => intro extra sd; rfl
  | cons cl rest ih =>
    intro extra sd
    obtain ⟨texts, metadata, writeOk⟩ := cl
    simp only [List.cons_append, runAdds]
    cases sd.1.add_documents sd.2 writeOk texts metadata with
    | ok sd1 => exact ih extra sd1
    | error e => exact ih extra sd

/-! ## Claim theorems: C5, C6, C7 -/

/-- Claim C5: after any sequence of `add_documents` calls starting from an
empty store (failed calls leave the state unchanged), the index holds
exactly one vector per stored document and every record's `id` equals its
position; moreover the document list only ever grows by appending — after
any further calls the earlier list survives unchanged as the front of the
new one, so ids are assigned sequentially and never reassigned. -/
theorem store_parity_after_adds :
    ∀ calls : List (List (List Char) × List ChunkMeta × Bool),
      storeInv (runAdds (emptyStore, emptyDisk) calls).1 ∧
      ∀ extra,
        (runAdds (emptyStore, emptyDisk) (calls ++ extra)).1.documents.take
            (runAdds (emptyStore, emptyDisk) calls).1.documents.length =
          (runAdds (emptyStore, emptyDisk) calls).1.documents := by
  intro calls
  refine ⟨runAdds_inv calls _ storeInv_empty, ?_⟩
  intro extra
  rw [runAdds_append]
  exact runAdds_grow extra _

/-- Claim C6: `add_documents` raises the arity-mismatch `ValueError` when
the two lists' lengths differ, and otherwise — for non-empty input, since
`if not texts` also raises — succeeds and appends every entry in order,
with sequentially assigned ids. -/
theorem add_documents_arity (s : FreeVectorStore) (disk : Disk) (writeOk : Bool)
    (texts : List (List Char)) (metadata : List ChunkMeta) :
    (texts.length ≠ metadata.length →
      s.add_documents disk writeOk texts metadata = .error .arityMismatch) ∧
    (texts ≠ [] → texts.length = metadata.length →
      s.add_documents disk writeOk texts metadata =
        .ok ({ ntotal := s.ntotal + texts.length,
               documents := s.documents ++ mkDocs s.documents.length (texts.zip metadata) },
             FreeVectorStore.save_index
               { ntotal := s.ntotal + texts.length,
                 documents := s.documents ++ mkDocs s.documents.length (texts.zip metadata) }
               disk writeOk)) :=
  ⟨fun hlen => add_documents_err s disk writeOk texts metadata hlen,
   fun hne hlen => add_documents_ok s disk writeOk texts metadata hne hlen⟩

/-- Claim C6 witness: both arms evaluated at concrete inputs. -/
theorem add_documents_arity_app :
    FreeVectorStore.add_documents emptyStore emptyDisk true ["a".toList] [] =
      .error .arityMismatch ∧
    FreeVectorStore.add_documents emptyStore emptyDisk true ["a".toList] [m1] =
      .ok ({ ntotal := 1, documents := [{ id := 0, text := "a".toList, metadata := m1 }] },
           { faiss_index := some 1,
             documents_json := some [{ id := 0, text := "a".toList, metadata := m1 }] }) := by
  constructor
  · exact (add_documents_arity emptyStore emptyDisk true ["a".toList] []).1 (by decide)
  · rw [(add_documents_arity emptyStore emptyDisk true ["a".toList] [m1]).2 (by decide) (by decide)]
    decide

/-- Claim C7: a persistence failure during `add_documents` is swallowed:
with the disk write failing (`writeOk = false`) the call still returns
successfully, the on-disk pair is simply left stale, and the resulting
in-memory store — which retains all newly appended entries — is the same
store a successful write would have produced. -/
theorem add_documents_persist_swallow (s : FreeVectorStore) (disk : Disk)
    (texts : List (List Char)) (metadata : List ChunkMeta)
    (hne : texts ≠ []) (hlen : texts.length = metadata.length) :
    s.add_documents disk false texts metadata =
      .ok ({ ntotal := s.ntotal + texts.length,
             documents := s.documents ++ mkDocs s.documents.length (texts.zip metadata) },
           disk) ∧
    (s.add_documents disk false texts metadata).map Prod.fst =
      (s.add_documents disk true texts metadata).map Prod.fst := by
  have h0 := add_documents_ok s disk false texts metadata hne hlen
  have h1 := add_documents_ok s disk true texts metadata hne hlen
  constructor
  · rw [h0]
    rfl
  · rw [h0, h1]
    rfl

/-- Claim C7 witness: a failed persist on a concrete call still returns
the appended store and leaves the disk untouched. -/
theorem add_documents_persist_swallow_app :
    FreeVectorStore.add_documents emptyStore emptyDisk false ["a".toList] [m1] =
      .ok ({ ntotal := 1, documents := [{ id := 0, text := "a".toList, metadata := m1 }] },
           emptyDisk) := by
  rw [(add_documents_persist_swallow emptyStore emptyDisk ["a".toList] [m1]
    (by decide) (by decide)).1]
  decide

/-! ## Helper lemmas: search and the query path -/

theorem searchFilter_score (documents : List Doc) (threshold : ℚ) :
    ∀ (raw : List (ℚ × Int)) (r : SearchResult),
      r ∈ searchFilter documents threshold raw → threshold ≤ r.score := by
  intro raw
  induction raw with
  | nil => intro r h; simp [searchFilter] at h
  | cons p rest ih =>
    obtain ⟨score, idx⟩ := p
    intro r h
    simp only [searchFilter] at h
    split at h
    · rename_i hc
      rcases List.mem_append.mp h with h1 | h2
      · split at h1
        · rcases List.mem_singleton.mp h1 with rfl
          exact hc.2
        · simp at h1
      · exact ih r h2
    · exact ih r h

theorem searchFilter_below (documents : List Doc) (threshold : ℚ) :
    ∀ raw : List (ℚ × Int), (∀ p ∈ raw, p.1 < threshold) →
      searchFilter documents threshold raw = [] := by
  intro raw
  induction raw with
  | nil => intro _; rfl
  | cons p rest ih =>
    intro h
    obtain ⟨score, idx⟩ := p
    simp only [searchFilter]
    rw [if_neg]
    · exact ih (fun q hq => h q (List.mem_cons_of_mem _ hq))
    · intro hc
      exact absurd hc.2 (not_le.mpr (h (score, idx) (List.mem_cons_self _ _)))

/-! ## Claim theorems: C4, C8, C9 -/

/-- Claim C4: every result `FreeVectorStore.search` returns has a score at
least the configured threshold, whatever the raw top-k neighbour list
contains — a below-threshold neighbour is filtered out by the
`score >= score_threshold` guard and never reaches the query path. -/
theorem search_score_ge_threshold (s : FreeVectorStore) (raw : List (ℚ × Int))
    (threshold : ℚ) (r : SearchResult) (h : r ∈ s.search raw threshold) :
    threshold ≤ r.score := by
  simp only [FreeVectorStore.search] at h
  split at h
  · simp at h
  · exact searchFilter_score s.documents threshold raw r h

/-- Claim C4 witness: a concrete search containing one above-threshold raw
neighbour, evaluated. -/
theorem search_score_ge_threshold_app :
    ({ text := "t".toList, score := 1, metadata := m1 } : SearchResult) ∈
      FreeVectorStore.search st1 [((1 : ℚ), (0 : Int))] scoreThreshold ∧
    scoreThreshold ≤ (1 : ℚ) := by
  have hmem : ({ text := "t".toList, score := 1, metadata := m1 } : SearchResult) ∈
      FreeVectorStore.search st1 [((1 : ℚ), (0 : Int))] scoreThreshold := by
    norm_num [FreeVectorStore.search, searchFilter, scoreThreshold, st1, d1]
  exact ⟨hmem, search_score_ge_threshold st1 [((1 : ℚ), (0 : Int))] scoreThreshold _ hmem⟩

/-- Claim C8: when every raw neighbour scores below the threshold (so zero
results pass), the query path returns 200 with `context_found = false`,
the fixed no-relevant-information message, empty retrieved docs, and the
generation backend is never called. -/
theorem query_no_context_path (s : FreeVectorStore) (raw : List (ℚ × Int))
    (outcome : OllamaOutcome) (question : List Char)
    (hq1 : stripChars question ≠ []) (hq2 : (stripChars question).length ≤ 1000)
    (hraw : ∀ p ∈ raw, p.1 < scoreThreshold) :
    QueryAPIView.post s raw outcome question =
      .ok { answer := noInfoMsg, retrieved_docs := [], context_found := false,
            relevance_scores := none, sources := none } false := by
  have hsearch : s.search raw scoreThreshold = [] := by
    simp only [FreeVectorStore.search]
    split
    · rfl
    · exact searchFilter_below s.documents scoreThreshold raw hraw
  simp only [QueryAPIView.post]
  rw [if_neg (by simp [hq1]), if_neg (by omega), hsearch]
  rfl

/-- Claim C8 witness: one stored chunk whose best score 1/4 is below the
0.3 threshold yields the fixed no-context response without a backend
call. -/
theorem query_no_context_path_app :
    (∀ p ∈ [((1 : ℚ)/4, (0 : Int))], p.1 < scoreThreshold) ∧
    QueryAPIView.post st1 [((1 : ℚ)/4, (0 : Int))] OllamaOutcome.non200 ("hi".toList) =
      .ok { answer := noInfoMsg, retrieved_docs := [], context_found := false,
            relevance_scores := none, sources := none } false := by
  have h : ∀ p ∈ [((1 : ℚ)/4, (0 : Int))], p.1 < scoreThreshold := by
    intro p hp
    rcases List.mem_singleton.mp hp with rfl
    norm_num [scoreThreshold]
  exact ⟨h, query_no_context_path st1 _ _ _ (by decide) (by decide) h⟩

/-- Claim C9: when at least one result passed the threshold and the
generation backend misbehaves (non-success status, connection failure, or
any other exception), the query path still returns 200 with
`context_found = true` and a non-empty answer, built from a fixed template
plus the first 300 (general fallback) or 200 (exception fallback)
characters of the assembled context — the caller never sees a hard
failure. -/
theorem query_fallback_answer (s : FreeVectorStore) (raw : List (ℚ × Int))
    (outcome : OllamaOutcome) (question : List Char)
    (hq1 : stripChars question ≠ []) (hq2 : (stripChars question).length ≤ 1000)
    (hne : s.search raw scoreThreshold ≠ [])
    (hout : outcome = .non200 ∨ outcome = .connectionError ∨ outcome = .otherException) :
    ∃ resp : QueryResponse,
      QueryAPIView.post s raw outcome question = .ok resp true ∧
      resp.context_found = true ∧
      resp.answer ≠ [] ∧
      (resp.answer = contextFallback (assembleContext s raw scoreThreshold) ∨
       resp.answer = exceptionFallback (assembleContext s raw scoreThreshold)) := by
  refine ⟨{ answer := QueryAPIView.generate_answer_with_ollama (stripChars question)
              (assembleContext s raw scoreThreshold) outcome,
            retrieved_docs := (s.search raw scoreThreshold).map SearchResult.text,
            context_found := true,
            relevance_scores := some ((s.search raw scoreThreshold).map SearchResult.score),
            sources := some (List.dedup ((s.search raw scoreThreshold).map
              (fun r => r.metadata.filename))) }, ?_, rfl, ?_, ?_⟩
  · simp only [QueryAPIView.post, assembleContext]
    rw [if_neg (by simp [hq1]), if_neg (by omega), if_neg (by simp [hne])]
  · rcases hout with rfl | rfl | rfl
    · simp only [QueryAPIView.generate_answer_with_ollama, contextFallback]
      intro hcontra
      rcases List.append_eq_nil.mp (List.append_eq_nil.mp hcontra).1 with ⟨h1, _⟩
      exact absurd h1 (by decide)
    · simp only [QueryAPIView.generate_answer_with_ollama, contextFallback]
      intro hcontra
      rcases List.append_eq_nil.mp (List.append_eq_nil.mp hcontra).1 with ⟨h1, _⟩
      exact absurd h1 (by decide)
    · simp only [QueryAPIView.generate_answer_with_ollama, exceptionFallback]
      intro hcontra
      rcases List.append_eq_nil.mp (List.append_eq_nil.mp hcontra).1 with ⟨h1, _⟩
      exact absurd h1 (by decide)
  · rcases hout with rfl | rfl | rfl
    · exact Or.inl rfl
    · exact Or.inl rfl
    · exact Or.inr rfl

/-- Claim C9 witness: with one above-threshold chunk and a connection
failure, the concrete query still yields a 200 answer from the context
fallback. -/
theorem query_fallback_answer_app :
    FreeVectorStore.search st1 [((1 : ℚ), (0 : Int))] scoreThreshold ≠ [] ∧
    ∃ resp : QueryResponse,
      QueryAPIView.post st1 [((1 : ℚ), (0 : Int))] OllamaOutcome.connectionError
          ("hi".toList) = .ok resp true ∧
      resp.context_found = true ∧
      resp.answer ≠ [] ∧
      (resp.answer = contextFallback
          (assembleContext st1 [((1 : ℚ), (0 : Int))] scoreThreshold) ∨
       resp.answer = exceptionFallback
          (assembleContext st1 [((1 : ℚ), (0 : Int))] scoreThreshold)) := by
  have hne : FreeVectorStore.search st1 [((1 : ℚ), (0 : Int))] scoreThreshold ≠ [] := by
    norm_num [FreeVectorStore.search, searchFilter, scoreThreshold, st1, d1]
  exact ⟨hne, query_fallback_answer st1 _ _ _ (by decide) (by decide) hne
    (Or.inr (Or.inl rfl))⟩

/-! ## Helper lemmas: the sentence splitter -/

theorem headIsPunct_false (acc : List Char) (h : ∀ c ∈ acc, isPunctChar c = false) :
    headIsPunct acc = false := by
  cases acc with
  | nil => rfl
  | cons p rest => exact h p (List.mem_cons_self _ _)

theorem splitSentencesAux_ne_nil : ∀ (rest : List Char) (skipping : Bool) (acc : List Char),
    splitSentencesAux skipping acc rest ≠ [] := by
  intro rest
  induction rest with
  | nil => intro skipping acc; simp [splitSentencesAux]
  | cons c cs ih =>
    intro skipping acc
    simp only [splitSentencesAux]
    split
    · split
      · exact ih true acc
      · split
        · simp
        · exact ih false (c :: acc)
    · exact ih false (c :: acc)

theorem splitSentencesAux_no_punct :
    ∀ (t acc : List Char), (∀ c ∈ acc, isPunctChar c = false) →
      (∀ c ∈ t, isPunctChar c = false) →
      splitSentencesAux false acc t = [acc.reverse ++ t] := by
  intro t
  induction t with
  | nil => intro acc hacc ht; simp [splitSentencesAux]
  | cons c cs ih =>
    intro acc hacc ht
    have hcs : ∀ x ∈ cs, isPunctChar x = false :=
      fun x hx => ht x (List.mem_cons_of_mem _ hx)
    have hacc2 : ∀ x ∈ c :: acc, isPunctChar x = false := by
      intro x hx
      rcases List.mem_cons.mp hx with rfl | hx
      · exact ht x (List.mem_cons_self _ _)
      · exact hacc x hx
    simp only [splitSentencesAux]
    by_cases hsp : isSpace c
    · rw [if_pos hsp]
      simp only [Bool.false_eq_true, if_false]
      rw [if_neg (by simp [headIsPunct_false acc hacc]), ih (c :: acc) hacc2 hcs]
      simp
    · rw [if_neg hsp, ih (c :: acc) hacc2 hcs]
      simp

/-! ## Claim theorems: C3 -/

/-- Claim C3 counterexample: 450 characters with no sentence punctuation,
chunked with the ingest parameters, do not produce a chunk — `chunk_text`
raises the no-chunks `ValueError` instead of returning a non-empty
sequence. -/
theorem c450_raises_cex :
    chunk_text (List.replicate 450 'a') 400 50 = .error .noChunks := by decide

/-- Claim C3 (amended): the `". "` fallback of `chunk_text` is dead code —
`re.split` always returns at least one piece, so `if not sentences` never
fires.  A punctuation-free text is therefore one single sentence unit
(its cleaned form), and when that unit is longer than `max_chunk_size`
(as for 450 characters against the ingest bound of 400) the single
sentence is rejected, zero chunks are produced, and `chunk_text` raises
`NoChunksProducedError`. -/
theorem punctfree_no_chunks (text : List Char)
    (hp : ∀ c ∈ collapseWs (stripChars text), isPunctChar c = false)
    (hlen : 400 < (collapseWs (stripChars text)).length) :
    (∀ u : List Char, splitSentences u ≠ []) ∧
    sentencesOf text = [collapseWs (stripChars text)] ∧
    chunk_text text 400 50 = .error .noChunks := by
  have hne : stripChars text ≠ [] := by
    intro h
    rw [h] at hlen
    simp [collapseWs] at hlen
  have hsplit : splitSentences (collapseWs (stripChars text)) =
      [collapseWs (stripChars text)] := by
    have := splitSentencesAux_no_punct (collapseWs (stripChars text)) []
      (by intro c hc; simp at hc) hp
    simpa [splitSentences] using this
  have hsents : sentencesOf text = [collapseWs (stripChars text)] := by
    simp only [sentencesOf]
    rw [hsplit]
    rfl
  refine ⟨fun u => by simpa [splitSentences] using splitSentencesAux_ne_nil u false [],
    hsents, ?_⟩
  have hbuild : buildChunk 400 [] 0 [collapseWs (stripChars text)] = ([], 0) := by
    simp only [buildChunk, List.isEmpty_nil, if_true]
    rw [if_neg (by omega)]
  have hloop : chunkLoop [collapseWs (stripChars text)] 400 50 1 0 = [] := by
    simp only [chunkLoop, List.length_singleton, Nat.zero_lt_one, if_true, List.drop_zero]
    rw [hbuild]
    simp [stripChars, chunkLoop]
  simp only [chunk_text]
  rw [if_neg (by simp [hne]), hsents]
  simp only [List.length_singleton]
  rw [hloop]
  rfl

/-- Claim C3 witness: the amended behaviour evaluated at the concrete
450-character punctuation-free input. -/
theorem punctfree_no_chunks_app :
    (∀ c ∈ collapseWs (stripChars (List.replicate 450 'a')), isPunctChar c = false) ∧
    400 < (collapseWs (stripChars (List.replicate 450 'a'))).length ∧
    chunk_text (List.replicate 450 'a') 400 50 = .error .noChunks :=
  ⟨by decide, by decide,
    (punctfree_no_chunks (List.replicate 450 'a') (by decide) (by decide)).2.2⟩

/-! ## Helper lemmas: ends of cleaned strings -/

theorem punct_not_space (c : Char) (h : isPunctChar c = true) : isSpace c = false := by
  have h3 : (c = '.' ∨ c = '!') ∨ c = '?' := by
    simpa [isPunctChar, Bool.or_eq_true, beq_iff_eq] using h
  rcases h3 with (rfl | rfl) | rfl <;> decide

theorem dropWhile_head?_not (p : Char → Bool) (l : List Char) (c : Char)
    (h : (l.dropWhile p).head? = some c) : p c = false := by
  have h2 := List.head?_dropWhile_not p l
  rw [h] at h2
  exact h2

theorem getLast?_cons_of_ne_nil (a : Char) (l : List Char) (h : l ≠ []) :
    (a :: l).getLast? = l.getLast? := by
  cases l with
  | nil => exact absurd rfl h
  | cons b bs => exact List.getLast?_cons_cons

theorem getLast?_append_cons_of_ne_nil (X : List Char) (c : Char) (cs : List Char)
    (h : cs ≠ []) : (X ++ c :: cs).getLast? = (X ++ cs).getLast? := by
  rw [List.getLast?_append, List.getLast?_append, getLast?_cons_of_ne_nil c cs h]

theorem dropWhile_getLast? (p : Char → Bool) (l : List Char)
    (hne : l.dropWhile p ≠ []) : (l.dropWhile p).getLast? = l.getLast? := by
  obtain ⟨d, hd⟩ := Option.isSome_iff_exists.mp (List.getLast?_isSome.mpr hne)
  rw [hd]
  conv_rhs =>
    rw [show l = List.takeWhile p l ++ List.dropWhile p l from
      (List.takeWhile_append_dropWhile p l).symm]
  rw [List.getLast?_append, hd]
  rfl

theorem stripChars_head? (l : List Char) (c : Char)
    (h : (stripChars l).head? = some c) : isSpace c = false :=
  dropWhile_head?_not isSpace _ c h

theorem stripChars_getLast? (l : List Char) (c : Char)
    (h : (stripChars l).getLast? = some c) : isSpace c = false := by
  simp only [stripChars] at h
  have hne : List.dropWhile isSpace ((l.reverse.dropWhile isSpace).reverse) ≠ [] := by
    intro hh
    rw [hh] at h
    simp at h
  rw [dropWhile_getLast? isSpace _ hne, List.getLast?_reverse] at h
  exact dropWhile_head?_not isSpace _ c h

theorem collapseWs_ne_nil : ∀ l : List Char, l ≠ [] → collapseWs l ≠ [] := by
  intro l
  induction l with
  | nil => intro h; exact absurd rfl h
  | cons c cs ih =>
    intro _
    cases cs with
    | nil =>
      simp only [collapseWs]
      split <;> simp
    | cons d ds =>
      simp only [collapseWs]
      split
      · split
        · exact ih (by simp)
        · simp
      · simp

theorem collapseWs_head? : ∀ l : List Char,
    (∀ c, l.head? = some c → isSpace c = false) →
    (collapseWs l).head? = l.head? := by
  intro l h
  cases l with
  | nil => rfl
  | cons c cs =>
    have hc := h c rfl
    cases cs with
    | nil => simp [collapseWs, hc]
    | cons d ds => simp [collapseWs, hc]

theorem collapseWs_getLast_ok : ∀ l : List Char,
    okEnd l.getLast? → okEnd (collapseWs l).getLast? := by
  intro l
  induction l with
  | nil =>
    intro h
    rcases h with ⟨c, hc, _⟩
    simp at hc
  | cons c cs ih =>
    intro h
    cases cs with
    | nil =>
      rcases h with ⟨e, he, hsp⟩
      have hce : c = e := by simpa using he
      subst hce
      simp only [collapseWs]
      rw [if_neg (by simp [hsp])]
      exact ⟨c, rfl, hsp⟩
    | cons d ds =>
      have h2 : okEnd (d :: ds).getLast? := by
        rcases h with ⟨e, he, hsp⟩
        rw [List.getLast?_cons_cons] at he
        exact ⟨e, he, hsp⟩
      have hrec := ih h2
      have hne := collapseWs_ne_nil (d :: ds) (by simp)
      rcases hrec with ⟨e, he, hsp⟩
      simp only [collapseWs]
      by_cases hc : isSpace c
      · rw [if_pos hc]
        by_cases hd : isSpace d
        · rw [if_pos hd]
          exact ⟨e, he, hsp⟩
        · rw [if_neg hd]
          exact ⟨e, by rw [getLast?_cons_of_ne_nil ' ' _ hne]; exact he, hsp⟩
      · rw [if_neg hc]
        exact ⟨e, by rw [getLast?_cons_of_ne_nil c _ hne]; exact he, hsp⟩

/-! ## Helper lemmas: ends of sentence units -/

theorem splitSentencesAux_props :
    ∀ (rest : List Char) (skipping : Bool) (acc : List Char),
      (∀ c, acc.getLast? = some c → isSpace c = false) →
      (acc = [] → skipping = false → ∀ c, rest.head? = some c → isSpace c = false) →
      okEnd (acc.reverse ++ rest).getLast? →
      ∀ s ∈ splitSentencesAux skipping acc rest,
        okEnd s.head? ∧ okEnd s.getLast? := by
  intro rest
  induction rest with
  | nil =>
    intro skipping acc hA hB hC s hs
    simp only [splitSentencesAux, List.mem_singleton] at hs
    subst hs
    rcases hC with ⟨e, he, hsp⟩
    rw [List.append_nil] at he
    have hrev_ne : acc.reverse ≠ [] := by
      intro hh
      rw [hh] at he
      simp at he
    have hacc_ne : acc ≠ [] := by simpa using hrev_ne
    constructor
    · obtain ⟨g, hg⟩ := Option.isSome_iff_exists.mp (List.getLast?_isSome.mpr hacc_ne)
      exact ⟨g, by rw [List.head?_reverse]; exact hg, hA g hg⟩
    · exact ⟨e, he, hsp⟩
  | cons c cs ih =>
    intro skipping acc hA hB hC s hs
    simp only [splitSentencesAux] at hs
    by_cases hsp : isSpace c
    · rw [if_pos hsp] at hs
      have hcs_ne : cs ≠ [] := by
        intro hh
        subst hh
        rcases hC with ⟨e, he, hns⟩
        rw [List.getLast?_append] at he
        have hec : c = e := by simpa using he
        rw [← hec, hsp] at hns
        simp at hns
      obtain ⟨g, hg⟩ := Option.isSome_iff_exists.mp (List.getLast?_isSome.mpr hcs_ne)
      have hC2 : ∀ X : List Char, okEnd ((X ++ c :: cs)).getLast? → okEnd ((X ++ cs)).getLast? := by
        intro X hX
        rw [getLast?_append_cons_of_ne_nil X c cs hcs_ne] at hX
        exact hX
      cases skipping with
      | true =>
        simp only [if_pos rfl] at hs
        exact ih true acc hA (by intro _ hcontra; exact absurd hcontra (by simp)) (hC2 _ hC) s hs
      | false =>
        simp only [Bool.false_eq_true, if_false] at hs
        by_cases hpunct : headIsPunct acc
        · rw [if_pos hpunct] at hs
          rcases List.mem_cons.mp hs with rfl | hs2
          · -- the emitted piece acc.reverse
            obtain ⟨p, tl, rfl⟩ : ∃ p tl, acc = p :: tl := by
              cases acc with
              | nil => exact absurd hpunct (by simp [headIsPunct])
              | cons p tl => exact ⟨p, tl, rfl⟩
            have hp : isPunctChar p = true := hpunct
            constructor
            · obtain ⟨g2, hg2⟩ := Option.isSome_iff_exists.mp
                (List.getLast?_isSome.mpr (show p :: tl ≠ [] by simp))
              exact ⟨g2, by rw [List.head?_reverse]; exact hg2, hA g2 hg2⟩
            · refine ⟨p, ?_, punct_not_space p hp⟩
              rw [List.getLast?_reverse]
              rfl
          · refine ih true [] (by intro e he; simp at he)
              (by intro _ hcontra; exact absurd hcontra (by simp)) ?_ s hs2
            have := hC2 [] (by simpa using hC)
            simpa using this
        · rw [if_neg hpunct] at hs
          -- keep branch with a whitespace c and skipping = false
          have hA2 : ∀ e, (c :: acc).getLast? = some e → isSpace e = false := by
            intro e he
            cases acc with
            | nil =>
              have hcw := hB rfl rfl c rfl
              rw [hsp] at hcw
              simp at hcw
            | cons a as =>
              rw [getLast?_cons_of_ne_nil c (a :: as) (by simp)] at he
              exact hA e he
          refine ih false (c :: acc) hA2 (by intro hcontra; simp at hcontra) ?_ s hs
          simpa [List.append_assoc] using hC
    · rw [if_neg hsp] at hs
      have hA2 : ∀ e, (c :: acc).getLast? = some e → isSpace e = false := by
        intro e he
        cases acc with
        | nil =>
          have hce : c = e := by simpa using he
          subst hce
          cases hb : isSpace c with
          | false => rfl
          | true => exact absurd hb hsp
        | cons a as =>
          rw [getLast?_cons_of_ne_nil c (a :: as) (by simp)] at he
          exact hA e he
      refine ih false (c :: acc) hA2 (by intro hcontra; simp at hcontra) ?_ s hs
      simpa [List.append_assoc] using hC

theorem sentencesOf_props (text : List Char) (hne : stripChars text ≠ []) :
    sentencesOf text = splitSentences (collapseWs (stripChars text)) ∧
    ∀ s ∈ sentencesOf text, okEnd s.head? ∧ okEnd s.getLast? := by
  have hts : sentencesOf text = splitSentences (collapseWs (stripChars text)) := by
    simp only [sentencesOf]
    rw [if_neg]
    intro hcontra
    rw [List.isEmpty_iff] at hcontra
    exact splitSentencesAux_ne_nil _ false [] hcontra
  refine ⟨hts, ?_⟩
  rw [hts]
  have hhead : ∀ c, (collapseWs (stripChars text)).head? = some c → isSpace c = false := by
    intro c hc
    rw [collapseWs_head? _ (fun e he => stripChars_head? text e he)] at hc
    exact stripChars_head? text c hc
  have hlast : okEnd (collapseWs (stripChars text)).getLast? := by
    apply collapseWs_getLast_ok
    obtain ⟨g, hg⟩ := Option.isSome_iff_exists.mp (List.getLast?_isSome.mpr hne)
    exact ⟨g, hg, stripChars_getLast? text g hg⟩
  intro s hs
  exact splitSentencesAux_props (collapseWs (stripChars text)) false []
    (by intro e he; simp at he)
    (fun _ _ => hhead)
    (by simpa using hlast)
    s (by simpa [splitSentences] using hs)

/-! ## Helper lemmas: the inner accumulation loop -/

theorem joinFrom_eq : ∀ (l : List (List Char)) (acc : List Char),
    joinFrom acc l = acc ++ (l.map (fun s => ' ' :: s)).flatten := by
  intro l
  induction l with
  | nil => intro acc; simp [joinFrom]
  | cons s rest ih =>
    intro acc
    rw [joinFrom, ih]
    simp [List.append_assoc]

theorem joinFrom_head? (l : List (List Char)) (acc : List Char) (h : acc ≠ []) :
    (joinFrom acc l).head? = acc.head? := by
  cases acc with
  | nil => exact absurd rfl h
  | cons a as => rw [joinFrom_eq]; rfl

theorem joinFrom_getLast_ok : ∀ (l : List (List Char)) (acc : List Char),
    okEnd acc.getLast? → (∀ u ∈ l, okEnd u.getLast?) →
    okEnd (joinFrom acc l).getLast? := by
  intro l
  induction l with
  | nil => intro acc h _; exact h
  | cons s rest ih =>
    intro acc hacc hl
    rw [joinFrom]
    refine ih _ ?_ (fun u hu => hl u (List.mem_cons_of_mem _ hu))
    rcases hl s (List.mem_cons_self _ _) with ⟨e, he, hsp⟩
    have hs_ne : s ≠ [] := by
      intro hh
      rw [hh] at he
      simp at he
    refine ⟨e, ?_, hsp⟩
    rw [List.getLast?_append, getLast?_cons_of_ne_nil ' ' s hs_ne, he]
    rfl

theorem joinFrom_infix (l : List (List Char)) (acc u : List Char)
    (h : u = acc ∨ u ∈ l) : ∃ p q, joinFrom acc l = p ++ u ++ q := by
  rcases h with rfl | hm
  · exact ⟨[], (l.map (fun s => ' ' :: s)).flatten, by rw [joinFrom_eq]; simp⟩
  · obtain ⟨l1, l2, rfl⟩ := List.append_of_mem hm
    refine ⟨acc ++ (l1.map (fun s => ' ' :: s)).flatten ++ [' '],
      (l2.map (fun s => ' ' :: s)).flatten, ?_⟩
    rw [joinFrom_eq]
    simp [List.append_assoc]

theorem buildChunk_spec (maxc : Nat) :
    ∀ (rest : List (List Char)) (acc : List Char) (sc : Nat), acc ≠ [] →
      ∃ n, n ≤ rest.length ∧
        buildChunk maxc acc sc rest = (joinFrom acc (rest.take n), sc + n) := by
  intro rest
  induction rest with
  | nil =>
    intro acc sc h
    exact ⟨0, by simp, by simp [buildChunk, joinFrom]⟩
  | cons s rs ih =>
    intro acc sc h
    have hacc : acc.isEmpty = false := by simpa using h
    simp only [buildChunk, hacc, Bool.false_eq_true, if_false]
    by_cases hpot : (acc ++ ' ' :: s).length ≤ maxc
    · rw [if_pos hpot]
      obtain ⟨n, hn, heq⟩ := ih (acc ++ ' ' :: s) (sc + 1) (by simp)
      refine ⟨n + 1, by simpa using Nat.succ_le_succ hn, ?_⟩
      rw [heq]
      rw [List.take_succ_cons, joinFrom]
      congr 1
      omega
    · rw [if_neg hpot]
      exact ⟨0, by simp, by simp [joinFrom]⟩

theorem buildChunk_top (maxc : Nat) (s : List Char) (rs : List (List Char)) (hs : s ≠ []) :
    (s.length ≤ maxc → ∃ n, n ≤ rs.length ∧
      buildChunk maxc [] 0 (s :: rs) = (joinFrom s (rs.take n), 1 + n)) ∧
    (maxc < s.length → buildChunk maxc [] 0 (s :: rs) = ([], 0)) := by
  constructor
  · intro hle
    simp only [buildChunk, List.isEmpty_nil, if_true]
    rw [if_pos hle]
    obtain ⟨n, hn, heq⟩ := buildChunk_spec maxc rs s 1 hs
    exact ⟨n, hn, heq⟩
  · intro hgt
    simp only [buildChunk, List.isEmpty_nil, if_true]
    rw [if_neg (by omega)]

theorem dropWhile_eq_self_of_head (p : Char → Bool) (l : List Char)
    (h : ∀ c, l.head? = some c → p c = false) : l.dropWhile p = l := by
  cases l with
  | nil => rfl
  | cons a as =>
    rw [List.dropWhile_cons_of_neg]
    simp [h a rfl]

theorem stripChars_eq_self (l : List Char)
    (hh : ∀ c, l.head? = some c → isSpace c = false)
    (hl : ∀ c, l.getLast? = some c → isSpace c = false) : stripChars l = l := by
  simp only [stripChars]
  rw [dropWhile_eq_self_of_head isSpace l.reverse
    (by intro c hc; rw [List.head?_reverse] at hc; exact hl c hc)]
  rw [List.reverse_reverse]
  exact dropWhile_eq_self_of_head isSpace l hh

/-! ## Coverage of the chunking loop -/

theorem chunkLoop_cover (sentences : List (List Char)) (maxc ov : Nat)
    (Hsent : ∀ u ∈ sentences, okEnd u.head? ∧ okEnd u.getLast?) :
    ∀ (fuel i j : Nat) (hj : j < sentences.length), i ≤ j →
      sentences.length - i ≤ fuel →
      (sentences[j]).length ≤ maxc →
      ∃ c ∈ chunkLoop sentences maxc ov fuel i,
        ∃ p q, c = p ++ sentences[j] ++ q := by
  intro fuel
  induction fuel with
  | zero => intro i j hj hij hf _; omega
  | succ fuel ih =>
    intro i j hj hij hf hjlen
    have hi : i < sentences.length := Nat.lt_of_le_of_lt hij hj
    have hdrop : sentences.drop i = sentences[i] :: sentences.drop (i + 1) :=
      List.drop_eq_getElem_cons hi
    have hs0ne : sentences[i] ≠ [] := by
      rcases (Hsent _ (List.getElem_mem hi)).1 with ⟨e, he, _⟩
      intro hh
      rw [hh] at he
      simp at he
    by_cases hs0 : (sentences[i]).length ≤ maxc
    · obtain ⟨n, hn, heq⟩ :=
        (buildChunk_top maxc sentences[i] (sentences.drop (i + 1)) hs0ne).1 hs0
      have hconsumed : ∀ u ∈ (sentences.drop (i + 1)).take n, u ∈ sentences :=
        fun u hu => List.mem_of_mem_drop (List.mem_of_mem_take hu)
      have hcur_head : okEnd (joinFrom sentences[i]
          ((sentences.drop (i + 1)).take n)).head? := by
        rw [joinFrom_head? _ _ hs0ne]
        exact (Hsent _ (List.getElem_mem hi)).1
      have hcur_last : okEnd (joinFrom sentences[i]
          ((sentences.drop (i + 1)).take n)).getLast? :=
        joinFrom_getLast_ok _ _ (Hsent _ (List.getElem_mem hi)).2
          (fun u hu => (Hsent u (hconsumed u hu)).2)
      have hcur_ne : joinFrom sentences[i] ((sentences.drop (i + 1)).take n) ≠ [] := by
        rcases hcur_head with ⟨e, he, _⟩
        intro hh
        rw [hh] at he
        simp at he
      have hstrip : stripChars (joinFrom sentences[i] ((sentences.drop (i + 1)).take n)) =
          joinFrom sentences[i] ((sentences.drop (i + 1)).take n) := by
        apply stripChars_eq_self
        · intro c hc
          rcases hcur_head with ⟨e, he, hsp⟩
          rw [hc] at he
          cases Option.some.inj he
          exact hsp
        · intro c hc
          rcases hcur_last with ⟨e, he, hsp⟩
          rw [hc] at he
          cases Option.some.inj he
          exact hsp
      have hloop_eq : chunkLoop sentences maxc ov (fuel + 1) i =
          joinFrom sentences[i] ((sentences.drop (i + 1)).take n) ::
            chunkLoop sentences maxc ov fuel (nextCursor ov i (1 + n)) := by
        simp only [chunkLoop]
        rw [if_pos hi, hdrop, heq]
        simp only [hstrip]
        rw [if_neg (by simp [hcur_ne]), List.singleton_append]
      by_cases hcov : j < i + (1 + n)
      · refine ⟨joinFrom sentences[i] ((sentences.drop (i + 1)).take n), ?_, ?_⟩
        · rw [hloop_eq]
          exact List.mem_cons_self _ _
        · rcases Nat.eq_or_lt_of_le hij with heqij | hlt
          · refine joinFrom_infix _ _ _ (Or.inl ?_)
            subst heqij
            rfl
          · have hk : j - (i + 1) < n := by omega
            have hk2 : j - (i + 1) < ((sentences.drop (i + 1)).take n).length := by
              simp only [List.length_take, List.length_drop]
              omega
            have hget : ((sentences.drop (i + 1)).take n).get ⟨j - (i + 1), hk2⟩ =
                sentences[j] := by
              simp only [List.get_eq_getElem, List.getElem_take, List.getElem_drop]
              congr 1
              omega
            refine joinFrom_infix _ _ _ (Or.inr ?_)
            rw [← hget]
            exact List.get_mem _ _ _
      · have hnext_le : nextCursor ov i (1 + n) ≤ j := by
          push_neg at hcov
          unfold nextCursor
          split
          · omega
          · rename_i hsc
            have h1 : 1 ≤ max 1 (min ((1 + n) / 2) (ov / 50)) := Nat.le_max_left _ _
            have h2 : max 1 (min ((1 + n) / 2) (ov / 50)) ≤ (1 + n) / 2 := by
              apply Nat.max_le.mpr
              exact ⟨by omega, Nat.min_le_left _ _⟩
            have h3 : max 1 ((1 + n) - max 1 (min ((1 + n) / 2) (ov / 50))) ≤ (1 + n) - 1 := by
              apply Nat.max_le.mpr
              exact ⟨by omega, by omega⟩
            omega
        have hnext_gt := nextCursor_gt ov i (1 + n)
        obtain ⟨c, hc, p, q, hpq⟩ :=
          ih (nextCursor ov i (1 + n)) j hj hnext_le (by omega) hjlen
        refine ⟨c, ?_, p, q, hpq⟩
        rw [hloop_eq]
        exact List.mem_cons_of_mem _ hc
    · push_neg at hs0
      have heq0 := (buildChunk_top maxc sentences[i] (sentences.drop (i + 1)) hs0ne).2 hs0
      have hij_ne : i ≠ j := by
        intro heqij
        subst heqij
        exact absurd hjlen (not_le.mpr hs0)
      have hloop_eq0 : chunkLoop sentences maxc ov (fuel + 1) i =
          chunkLoop sentences maxc ov fuel (i + 1) := by
        simp only [chunkLoop]
        rw [if_pos hi, hdrop, heq0]
        have hnext0 : nextCursor ov i 0 = i + 1 := by
          unfold nextCursor
          rw [if_pos (by omega)]
        simp [stripChars, hnext0]
      rw [hloop_eq0]
      exact ih (i + 1) j hj (by omega) (by omega) hjlen

/-! ## Claim theorems: C2 -/

/-- Claim C2 counterexample: with the ingest bound 400, the input
`"Ok. " ++ 450 × 'b'` splits into the sentences `"Ok."` and the 450-`b`
sentence; `chunk_text` succeeds but its output `["Ok."]` contains the
oversized sentence in no chunk — the sentence is dropped entirely. -/
theorem sentence_dropped_cex :
    chunk_text ("Ok. ".toList ++ List.replicate 450 'b') 400 50 = .ok ["Ok.".toList] ∧
    List.replicate 450 'b' ∈ sentencesOf ("Ok. ".toList ++ List.replicate 450 'b') ∧
    ∀ c ∈ ["Ok.".toList], ¬ ∃ p q, c = p ++ List.replicate 450 'b' ++ q := by
  refine ⟨by decide, by decide, ?_⟩
  intro c hc hex
  rcases List.mem_singleton.mp hc with rfl
  rcases hex with ⟨p, q, hpq⟩
  have hlen := congrArg List.length hpq
  simp only [List.length_append, List.length_replicate] at hlen
  have h3 : ("Ok.".toList).length = 3 := by decide
  omega

/-- Claim C2 (amended): every sentence unit of the splitting step whose
length is at most `max_chunk_size` appears (as a contiguous substring) in
at least one returned chunk; only a sentence longer than `max_chunk_size`
can be dropped. -/
theorem chunk_cover_small_sentences (text : List Char) (maxc ov : Nat)
    (chunks : List (List Char)) (h : chunk_text text maxc ov = .ok chunks)
    (s : List Char) (hs : s ∈ sentencesOf text) (hlen : s.length ≤ maxc) :
    ∃ c ∈ chunks, ∃ p q, c = p ++ s ++ q := by
  have hne : stripChars text ≠ [] := by
    intro hh
    simp [chunk_text, hh] at h
  have hprops := (sentencesOf_props text hne).2
  obtain ⟨j, hj, hget⟩ := List.mem_iff_getElem.mp hs
  have hchunks := chunk_text_ok_eq text maxc ov chunks h
  subst hchunks
  obtain ⟨c, hc, p, q, hpq⟩ := chunkLoop_cover (sentencesOf text) maxc ov hprops
    (sentencesOf text).length 0 j hj (Nat.zero_le j) (by omega) (by rw [hget]; exact hlen)
  exact ⟨c, hc, p, q, by rw [hpq, hget]⟩

/-- Claim C2 witness: the coverage property evaluated on a concrete
two-sentence input. -/
theorem chunk_cover_small_sentences_app :
    chunk_text ("a. b.".toList) 500 50 = .ok ["a. b.".toList, "b.".toList] ∧
    "b.".toList ∈ sentencesOf ("a. b.".toList) ∧
    ∃ c ∈ ["a. b.".toList, "b.".toList], ∃ p q, c = p ++ "b.".toList ++ q :=
  ⟨by decide, by decide,
    chunk_cover_small_sentences ("a. b.".toList) 500 50 ["a. b.".toList, "b.".toList]
      (by decide) ("b.".toList) (by decide) (by decide)⟩
